import Mathlib

/- Shallow embedding of the demo indexing tool (scripts/demo_indexing.py):
   the catalog data model (LinkKind, T, cell normalization, Algorithm records),
   the two render formats (Html and Rst) with their link-suffix rules, the link
   extractor and validator, and the sentinel-delimited region patcher
   (separate_compare_overwrite).  File contents are modelled as lists of
   characters; the filesystem is modelled as a boolean existence predicate. -/

set_option maxHeartbeats 1000000
set_option linter.unusedVariables false

/-- Source constant LINK_DEFAULT_TEXT. -/
def LINK_DEFAULT_TEXT : String := "demo"

/-- Source constant TRUE_TEXT. -/
def TRUE_TEXT : String := "yes"

/-- Models the Python value of the dunder file variable that is interpolated
    into AUTOGENERATED_PROMPT; a fixed path string. -/
def FILE_NAME : String := "scripts/demo_indexing.py"

/-- Source constant AUTOGENERATED_PROMPT. -/
def AUTOGENERATED_PROMPT : String :=
  "autogenerated by " ++ FILE_NAME ++ ", edit that file instead of this location"

/-- Source constant DOCS_LINK_SEPARATOR. -/
def DOCS_LINK_SEPARATOR : String := "\n<!-- DOCS LINKS -->\n"

/-- A single-quote character as a string (used by the HTML attribute renderer). -/
def squote : String := String.mk [Char.ofNat 39]

/-- The enum LinkKind from the source: kinds of links carried by a text node. -/
inductive LinkKind
| index
| notebook
deriving DecidableEq

/-- The class T from the source: an atomic labeled, optionally linkable text node. -/
structure T where
  text : String
  link : Option String
  details : Option String
  kind : LinkKind
deriving DecidableEq

/-- The constructor logic of T: if text is absent and link is absent this is a
    ValueError (modelled as Option.none); if only link is given, text defaults to
    LINK_DEFAULT_TEXT.  The kind argument is typed as LinkKind, which models the
    assert that kind is a member of the LinkKind enumeration. -/
def mkT (text : Option String) (link : Option String) (details : Option String)
    (kind : LinkKind) : Option T :=
  match text, link with
  | none, none => none
  | none, some l => some ⟨LINK_DEFAULT_TEXT, some l, details, kind⟩
  | some tx, _ => some ⟨tx, link, details, kind⟩

/-- The declared input domain of T.textify: Python None, booleans, strings,
    already constructed text nodes, and (nested) lists of these. -/
inductive CellInput
| noneI : CellInput
| boolI : Bool → CellInput
| strI : String → CellInput
| nodeI : T → CellInput
| listI : List CellInput → CellInput

/-- Canonical cell content produced by T.textify: absent, one text node, or a
    list of (recursively normalized) values. -/
inductive CellValue
| none : CellValue
| node : T → CellValue
| list : List CellValue → CellValue

/-- Python truthiness on the textify input domain: None, False, the empty
    string and the empty list are falsy; T instances are always truthy. -/
def cellFalsy : CellInput → Prop
  | CellInput.noneI => True
  | CellInput.boolI b => b = false
  | CellInput.strI s => s = ""
  | CellInput.nodeI _ => False
  | CellInput.listI xs => xs = []

mutual

/-- T.textify from the source.  The Python cascade is: falsy input returns None;
    True returns T(TRUE_TEXT); a list is normalized element-wise; a T is returned
    unchanged; anything else (a nonempty string here) becomes T(inp).  Each
    constructor case below combines the leading falsy test with the isinstance
    dispatch of the source. -/
def textify : CellInput → CellValue
  | CellInput.noneI => CellValue.none
  | CellInput.boolI b =>
    if b then CellValue.node ⟨TRUE_TEXT, none, none, LinkKind.notebook⟩ else CellValue.none
  | CellInput.strI s =>
    if s = "" then CellValue.none else CellValue.node ⟨s, none, none, LinkKind.notebook⟩
  | CellInput.nodeI t => CellValue.node t
  | CellInput.listI xs =>
    if xs.isEmpty then CellValue.none else CellValue.list (textifyList xs)

/-- Element-wise normalization of a list cell (the list comprehension in textify). -/
def textifyList : List CellInput → List CellValue
  | [] => []
  | x :: xs => textify x :: textifyList xs

end

mutual

/-- Re-reads a normalized cell value as a textify input; Python has a single
    dynamically-typed domain, so the output of textify can be fed back to it. -/
def cellEmbed : CellValue → CellInput
  | CellValue.none => CellInput.noneI
  | CellValue.node t => CellInput.nodeI t
  | CellValue.list xs => CellInput.listI (cellEmbedList xs)

/-- List version of cellEmbed. -/
def cellEmbedList : List CellValue → List CellInput
  | [] => []
  | c :: cs => cellEmbed c :: cellEmbedList cs

end

/-- The two concrete Format subclasses of the source as a closed variant:
    Html (hypertext) and Rst (structured text). -/
inductive Fmt
| html
| rst
deriving DecidableEq

/-- Html.index_suffix and Rst.index_suffix: the suffix appended to an
    index-kind link, depending on whether the resolution is for checking
    on-disk existence or for final rendering. -/
def Fmt.index_suffix : Fmt → Bool → String
  | Fmt.html, _ => "/README.md"
  | Fmt.rst, checking => if checking then "/index.rst" else "/index"

/-- Html.notebook_suffix and Rst.notebook_suffix. -/
def Fmt.notebook_suffix : Fmt → Bool → String
  | Fmt.html, _ => ".ipynb"
  | Fmt.rst, checking => if checking then ".nblink" else ""

/-- Format.link from the source: None when the node has no link, otherwise the
    link stem with the kind- and format-specific suffix appended.  The source
    dispatches on the kind with two if tests; since the constructor of T asserts
    that kind is a LinkKind, the match below is exhaustive. -/
def Fmt.link (fmt : Fmt) (t : T) (checking : Bool) : Option String :=
  match t.link with
  | none => none
  | some l =>
    let sfx :=
      match t.kind with
      | LinkKind.index => fmt.index_suffix checking
      | LinkKind.notebook => fmt.notebook_suffix checking
    some (l ++ sfx)

/-- An Algorithm record: the insertion-ordered columns dictionary, mapping each
    heading text node to that column's normalized cell content. -/
structure Algorithm where
  columns : List (T × CellValue)

/-- Dictionary lookup algorithm.columns[heading].  Python raises KeyError when
    the heading is missing; the claims only use lookups on headings that are
    present, and theorems that quantify over arbitrary records carry an
    explicit hypothesis that every lookup succeeds. -/
def Algorithm.col (a : Algorithm) (heading : T) : CellValue :=
  match List.find? (fun p => p.1 == heading) a.columns with
  | some p => p.2
  | none => CellValue.none

/-- Python str.join: joins a list of strings with a separator between
    consecutive elements. -/
def joinWith (sep : String) : List String → String
  | [] => ""
  | [x] => x
  | x :: y :: t => x ++ sep ++ joinWith sep (y :: t)

/-- A run of n copies of one character (the Python expression c * n). -/
def strRepeat (c : Char) (n : Nat) : String := String.mk (List.replicate n c)

/-- The mutable HtmlBuilder of the source as an explicit state record. -/
structure HtmlBuilder where
  html : List String
  indent_amount : Option Nat
  indent_level : Nat
  add_count : Nat

/-- HtmlBuilder.__init__. -/
def HtmlBuilder.init (indent : Option Nat) : HtmlBuilder := ⟨[], indent, 0, 0⟩

/-- HtmlBuilder.add.  With one_line the data is appended to the last emitted
    line (the source indexes html[-1], which render call sites only reach with a
    nonempty buffer; an empty buffer is given an empty default line here).
    Otherwise the data is emitted as its own line, indented when the builder has
    a truthy (present and nonzero) indent amount. -/
def HtmlBuilder.add (b : HtmlBuilder) (data : String) (one_line : Bool) : HtmlBuilder :=
  let b1 : HtmlBuilder := { b with add_count := b.add_count + 1 }
  if one_line then
    { b1 with html := b1.html.dropLast ++ [(b1.html.getLast?.getD "") ++ data] }
  else
    let d :=
      match b1.indent_amount with
      | some n => if n = 0 then data else strRepeat ' ' (n * b1.indent_level) ++ data
      | none => data
    { b1 with html := b1.html ++ [d] }

/-- The attribute string of HtmlBuilder.element: space-joined name-quote-value
    items, preceded by one space when nonempty. -/
def attrsStr (attrs : List (String × String)) : String :=
  let s := joinWith " " (attrs.map (fun p => p.1 ++ "=" ++ squote ++ p.2 ++ squote))
  if s = "" then s else " " ++ s

/-- HtmlBuilder.element: the context manager that opens an element, runs the
    body one indent level deeper, and closes the element, collapsing onto the
    last line when the body emitted nothing.  With only_with_attrs and no
    attributes the body runs with no wrapping element. -/
def HtmlBuilder.element (b : HtmlBuilder) (name : String) (attrs : List (String × String))
    (only_with_attrs : Bool) (body : HtmlBuilder → HtmlBuilder) : HtmlBuilder :=
  if only_with_attrs && attrs.isEmpty then body b
  else
    let b1 := b.add ("<" ++ name ++ attrsStr attrs ++ ">") false
    let b2 : HtmlBuilder := { b1 with indent_level := b1.indent_level + 1 }
    let initial_len := b2.html.length
    let b3 := body b2
    let b4 : HtmlBuilder := { b3 with indent_level := b3.indent_level - 1 }
    b4.add ("</" ++ name ++ ">") (b3.html.length == initial_len)

/-- HtmlBuilder.string: newline-joined when an indent amount was configured
    (even zero), plain concatenation when it is None. -/
def HtmlBuilder.stringOut (b : HtmlBuilder) : String :=
  let sep := match b.indent_amount with
    | none => ""
    | some _ => "\n"
  joinWith sep b.html

/-- Html._render_t: a text node rendered to inline HTML, with an optional
    hover-title span and an optional link anchor. -/
def Html.render_t (t : T) : String :=
  let title_attr : List (String × String) :=
    match t.details with
    | some d => if d = "" then [] else [("title", d)]
    | none => []
  let lnk := Fmt.link Fmt.html t false
  let href_attr : List (String × String) :=
    match lnk with
    | some l => if l = "" then [] else [("href", l)]
    | none => []
  let h0 := HtmlBuilder.init none
  let h1 := h0.element "span" title_attr true (fun hs =>
    hs.element "a" href_attr true (fun ha => ha.add t.text false))
  h1.stringOut

mutual

/-- Html._render_cell: nothing for a falsy cell (absent or the empty list),
    one line per element for a list, and one added rendering for a node. -/
def Html.render_cell (b : HtmlBuilder) (cell : CellValue) (one_line : Bool) : HtmlBuilder :=
  match cell with
  | CellValue.none => b
  | CellValue.list xs => if xs.isEmpty then b else Html.render_cell_list b xs
  | CellValue.node t => b.add (Html.render_t t) one_line

/-- The list loop of Html._render_cell (each element on its own line). -/
def Html.render_cell_list (b : HtmlBuilder) : List CellValue → HtmlBuilder
  | [] => b
  | c :: cs => Html.render_cell_list (Html.render_cell b c false) cs

end

/-- Html.render: the autogenerated marker line followed by a table element
    with one header row and one row per algorithm record. -/
def Html.render (headings : List T) (algorithms : List Algorithm) : String :=
  let b0 := HtmlBuilder.init (some 2)
  let b1 := b0.add ("<!-- " ++ AUTOGENERATED_PROMPT ++ " -->") false
  let b2 := b1.element "table" [] false (fun bt =>
    let bh := bt.element "tr" [] false (fun br =>
      List.foldl (fun acc heading =>
        acc.element "th" [] false (fun bc =>
          bc.add (Html.render_t heading) true)) br headings)
    List.foldl (fun acc alg =>
      HtmlBuilder.element acc "tr" [] false (fun br =>
        List.foldl (fun acc2 heading =>
          HtmlBuilder.element acc2 "td" [] false (fun bc =>
            Html.render_cell bc (alg.col heading) true)) br headings)) bh algorithms)
  b2.stringOut

/-- Rst._render_t: details replace the text when present; a link (rendered
    with non-checking resolution) becomes an inline any-role reference. -/
def Rst.render_t (t : T) : String :=
  let lnk := Fmt.link Fmt.rst t false
  let tx := match t.details with
    | some d => if d = "" then t.text else d
    | none => t.text
  match lnk with
  | some l =>
    if l = "" then tx else ":any:`" ++ tx ++ " <" ++ l ++ ">`"
  | none => tx

mutual

/-- Rst._render_cell: empty string for a falsy cell, comma-joined renderings
    for a list, and the node rendering otherwise. -/
def Rst.render_cell : CellValue → String
  | CellValue.none => ""
  | CellValue.list xs => if xs.isEmpty then "" else joinWith ", " (Rst.render_cell_list xs)
  | CellValue.node t => Rst.render_t t

/-- The comma-join generator of Rst._render_cell. -/
def Rst.render_cell_list : List CellValue → List String
  | [] => []
  | c :: cs => Rst.render_cell c :: Rst.render_cell_list cs

end

/-- Rst.render: a list-table directive, one row marker per record, one item
    line per heading; an empty item stays a bare marker. -/
def Rst.render (headings : List T) (algorithms : List Algorithm) : String :=
  let result : List String := [".. list-table::", "   :header-rows: 1", ""]
  let new_row := "   *"
  let new_item := "     -"
  let result := result ++ [new_row]
  let result := result ++ headings.map (fun h => new_item ++ " " ++ Rst.render_t h)
  let result := List.foldl (fun acc alg =>
    (acc ++ [new_row]) ++ headings.map (fun h =>
      let rst := Rst.render_cell (alg.col h)
      if rst = "" then new_item else new_item ++ " " ++ rst)) result algorithms
  joinWith "\n" result

/-- The dynamically-typed tree walked by find_links: None, a text node, a list,
    an Algorithm record (its ordered column values), or any other value (the
    unsupported case the source raises ValueError on). -/
inductive Element
| noneE : Element
| nodeE : T → Element
| listE : List Element → Element
| recordE : List (T × Element) → Element
| otherE : Element

mutual

/-- Converts normalized cell content into the traversal tree (the column values
    of a record are textify outputs). -/
def cellToElement : CellValue → Element
  | CellValue.none => Element.noneE
  | CellValue.node t => Element.nodeE t
  | CellValue.list xs => Element.listE (cellsToElements xs)

/-- List version of cellToElement. -/
def cellsToElements : List CellValue → List Element
  | [] => []
  | c :: cs => cellToElement c :: cellsToElements cs

end

mutual

/-- find_links from the source: yields the (declared link, resolved link)
    pairs of every reachable text node, resolving with checking mode; a
    rendered link is yielded only when it is truthy (present and nonempty).
    An element outside the four supported shapes is a ValueError, modelled as
    an error result that aborts the whole traversal. -/
def find_links (fmt : Fmt) : Element → Except String (List (Option String × String))
  | Element.noneE => Except.ok []
  | Element.nodeE t =>
    match Fmt.link fmt t true with
    | some r => if r = "" then Except.ok [] else Except.ok [(t.link, r)]
    | none => Except.ok []
  | Element.listE xs => findLinksList fmt xs
  | Element.recordE cols => findLinksCols fmt cols
  | Element.otherE => Except.error "unsupported element in link finding"

/-- The list loop of find_links: concatenation in order, aborting on the first
    unsupported element. -/
def findLinksList (fmt : Fmt) : List Element → Except String (List (Option String × String))
  | [] => Except.ok []
  | e :: es =>
    match find_links fmt e with
    | Except.error msg => Except.error msg
    | Except.ok ps =>
      match findLinksList fmt es with
      | Except.error msg => Except.error msg
      | Except.ok qs => Except.ok (ps ++ qs)

/-- The record loop of find_links: the column values in heading-declaration
    order. -/
def findLinksCols (fmt : Fmt) : List (T × Element) → Except String (List (Option String × String))
  | [] => Except.ok []
  | (_, e) :: ces =>
    match find_links fmt e with
    | Except.error msg => Except.error msg
    | Except.ok ps =>
      match findLinksCols fmt ces with
      | Except.error msg => Except.error msg
      | Except.ok qs => Except.ok (ps ++ qs)

end

mutual

/-- The Link Extractor contract as the specification words it: None yields
    nothing; a text node with its link set yields one pair, resolved with the
    checking-mode suffix for its kind; lists and records concatenate in order;
    anything else fails fast. -/
def findLinksSpec (fmt : Fmt) : Element → Except String (List (Option String × String))
  | Element.noneE => Except.ok []
  | Element.nodeE t =>
    match t.link with
    | none => Except.ok []
    | some l =>
      let sfx :=
        match t.kind with
        | LinkKind.index => fmt.index_suffix true
        | LinkKind.notebook => fmt.notebook_suffix true
      Except.ok [(some l, l ++ sfx)]
  | Element.listE xs => findLinksListSpec fmt xs
  | Element.recordE cols => findLinksColsSpec fmt cols
  | Element.otherE => Except.error "unsupported element in link finding"

/-- List concatenation case of the specification traversal. -/
def findLinksListSpec (fmt : Fmt) : List Element → Except String (List (Option String × String))
  | [] => Except.ok []
  | e :: es =>
    match findLinksSpec fmt e with
    | Except.error msg => Except.error msg
    | Except.ok ps =>
      match findLinksListSpec fmt es with
      | Except.error msg => Except.error msg
      | Except.ok qs => Except.ok (ps ++ qs)

/-- Record concatenation case of the specification traversal. -/
def findLinksColsSpec (fmt : Fmt) : List (T × Element) → Except String (List (Option String × String))
  | [] => Except.ok []
  | (_, e) :: ces =>
    match findLinksSpec fmt e with
    | Except.error msg => Except.error msg
    | Except.ok ps =>
      match findLinksColsSpec fmt ces with
      | Except.error msg => Except.error msg
      | Except.ok qs => Except.ok (ps ++ qs)

end

/-- Python str.lower, character-wise. -/
def strLower (s : String) : String := String.mk (s.data.map Char.toLower)

/-- Python str.startswith. -/
def strStarts (s p : String) : Bool := p.data.isPrefixOf s.data

/-- Python str.endswith. -/
def strEnds (s p : String) : Bool := p.data.isSuffixOf s.data

/-- posixpath.isabs: a path is absolute when it starts with a slash. -/
def isabs (p : String) : Bool := strStarts p "/"

/-- posixpath.join for two components: an absolute second component wins;
    otherwise the components are joined with a slash unless the base is empty
    or already ends with a slash. -/
def pathJoin (base p : String) : String :=
  if isabs p then p
  else if base = "" then p
  else if strEnds base "/" then base ++ p
  else base ++ "/" ++ p

/-- link_is_valid_relative from the source, over a filesystem-existence
    predicate fs: a missing link is valid; an absolute link is invalid; a link
    whose lowercased form starts with "http" is invalid; otherwise the link is
    valid exactly when the joined path exists. -/
def link_is_valid_relative (fs : String → Bool) (link : Option String) (base_dir : String) : Bool :=
  match link with
  | none => true
  | some l =>
    if isabs l then false
    else if strStarts (strLower l) "http" then false
    else fs (pathJoin base_dir l)

/-- Leftmost, non-overlapping split on a separator, exactly as Python
    str.split: scanning left to right, each separator occurrence ends the
    current part.  (Python rejects an empty separator; the guard makes the
    empty separator produce a single part here.) -/
def splitOnList (sep : List Char) : List Char → List (List Char)
  | [] => [[]]
  | c :: rest =>
    if h : sep ≠ [] ∧ sep.isPrefixOf (c :: rest) then
      [] :: splitOnList sep ((c :: rest).drop sep.length)
    else
      match splitOnList sep rest with
      | [] => [[c]]
      | part :: parts => (c :: part) :: parts
termination_by l => l.length
decreasing_by
· have hs : 0 < sep.length := List.length_pos.mpr h.1
  simp only [List.length_drop, List.length_cons]
  omega
· simp

/-- The number of leftmost non-overlapping separator occurrences (what the
    source reports as len(parts) - 1). -/
def countOcc (sep : List Char) : List Char → Nat
  | [] => 0
  | c :: rest =>
    if h : sep ≠ [] ∧ sep.isPrefixOf (c :: rest) then
      countOcc sep ((c :: rest).drop sep.length) + 1
    else
      countOcc sep rest
termination_by l => l.length
decreasing_by
· have hs : 0 < sep.length := List.length_pos.mpr h.1
  simp only [List.length_drop, List.length_cons]
  omega
· simp

/-- Python sep.join on character lists: the inverse of splitting. -/
def joinSep (sep : List Char) : List (List Char) → List Char
  | [] => []
  | [p] => p
  | p :: q :: t => p ++ sep ++ joinSep sep (q :: t)

/-- The two command-line actions of the tool. -/
inductive PatchAction
| compare
| overwrite
deriving DecidableEq

/-- What a run of separate_compare_overwrite does: exit with the separator
    count error, exit with the compare mismatch error, or finish normally.
    Both error exits happen before any write. -/
inductive PatchOutcome
| sepError : Nat → PatchOutcome
| mismatch : PatchOutcome
| ok : PatchOutcome
deriving DecidableEq

/-- The outcome of one region-patcher run together with the resulting on-disk
    file contents (unchanged except for a successful overwrite, which seeks to
    the start, writes the rejoined parts and truncates the remainder). -/
structure PatchResult where
  outcome : PatchOutcome
  file : List Char
deriving DecidableEq

/-- separate_compare_overwrite from the source: split the file on the
    separator; anything but exactly three parts is a fatal error reporting
    len(parts) - 1 occurrences; compare mode errors when the freshly rendered
    middle differs from the current one and does nothing when equal; overwrite
    mode rewrites the file as prefix, separator, new middle, separator,
    suffix. -/
def separate_compare_overwrite (file_contents sep : List Char) (action : PatchAction)
    (new_middle : List Char) : PatchResult :=
  match splitOnList sep file_contents, action with
  | [pre, mid, suf], PatchAction.compare =>
    if new_middle ≠ mid then ⟨PatchOutcome.mismatch, file_contents⟩
    else ⟨PatchOutcome.ok, file_contents⟩
  | [pre, mid, suf], PatchAction.overwrite =>
    ⟨PatchOutcome.ok, pre ++ sep ++ new_middle ++ sep ++ suf⟩
  | parts, _ => ⟨PatchOutcome.sepError (parts.length - 1), file_contents⟩

/- Theorems. -/

/-- C6: for an index-kind node with link node-classification, hypertext
    checking resolution appends /README.md, structured-text checking resolution
    appends /index.rst, structured-text rendering resolution appends /index,
    and hypertext rendering resolution equals its checking resolution. -/
theorem link_suffix_asymmetry (tx : String) (details : Option String) :
    Fmt.link Fmt.html ⟨tx, some "node-classification", details, LinkKind.index⟩ true
      = some "node-classification/README.md"
    ∧ Fmt.link Fmt.rst ⟨tx, some "node-classification", details, LinkKind.index⟩ true
      = some "node-classification/index.rst"
    ∧ Fmt.link Fmt.rst ⟨tx, some "node-classification", details, LinkKind.index⟩ false
      = some "node-classification/index"
    ∧ Fmt.link Fmt.html ⟨tx, some "node-classification", details, LinkKind.index⟩ false
      = Fmt.link Fmt.html ⟨tx, some "node-classification", details, LinkKind.index⟩ true :=
  ⟨rfl, rfl, rfl, rfl⟩

/-- C10: every node built by the constructor of T has a kind inside the
    LinkKind enumeration, so Format.link is total on it and returns None
    exactly when the node has no link. -/
theorem mkT_kind_link_total (tx lk dt : Option String) (kind : LinkKind) (t : T)
    (fmt : Fmt) (checking : Bool) (h : mkT tx lk dt kind = some t) :
    (t.kind = LinkKind.index ∨ t.kind = LinkKind.notebook)
    ∧ (Fmt.link fmt t checking = none ↔ t.link = none) := by
  constructor
  · cases hk : t.kind
    · exact Or.inl rfl
    · exact Or.inr rfl
  · unfold Fmt.link
    cases hl : t.link <;> simp

/-- Witness for C10 at a concrete constructor call. -/
theorem mkT_kind_link_total_example :
    mkT none (some "embeddings") none LinkKind.index
      = some ⟨LINK_DEFAULT_TEXT, some "embeddings", none, LinkKind.index⟩
    ∧ (Fmt.link Fmt.html ⟨LINK_DEFAULT_TEXT, some "embeddings", none, LinkKind.index⟩ true = none
        ↔ (some "embeddings" : Option String) = none) :=
  ⟨rfl,
    (mkT_kind_link_total none (some "embeddings") none LinkKind.index
      ⟨LINK_DEFAULT_TEXT, some "embeddings", none, LinkKind.index⟩ Fmt.html true rfl).2⟩

/-- The Link Validator contract as the specification words it: an absent link
    is valid, an absolute path is invalid, a path beginning with an HTTP or
    HTTPS scheme marker (case-insensitive) is invalid, and otherwise the link
    is valid exactly when a filesystem entry exists at the joined path. -/
def linkValidSpec (fs : String → Bool) (link : Option String) (base_dir : String) : Prop :=
  link = none
  ∨ ∃ l, link = some l
      ∧ isabs l = false
      ∧ strStarts (strLower l) "http://" = false
      ∧ strStarts (strLower l) "https://" = false
      ∧ fs (pathJoin base_dir l) = true

/-- C4 counterexample: the relative link http-notes/index.rst points at an
    existing entry and carries no URL scheme marker, so the specification
    declares it valid, but the code rejects it. -/
theorem validator_http_cex :
    link_is_valid_relative (fun _ => true) (some "http-notes/index.rst") "demos" = false
    ∧ linkValidSpec (fun _ => true) (some "http-notes/index.rst") "demos" := by
  constructor
  · decide
  · exact Or.inr ⟨"http-notes/index.rst", rfl, by decide, by decide, by decide, rfl⟩

/-- The validity rule the code actually implements, worded as the amended
    claim: an absent link is valid, an absolute path is invalid, a path whose
    lowercased form begins with the four characters http is invalid, and
    otherwise the link is valid exactly when a filesystem entry exists at the
    joined path. -/
def linkValidAmended (fs : String → Bool) (link : Option String) (base_dir : String) : Prop :=
  link = none
  ∨ ∃ l, link = some l
      ∧ isabs l = false
      ∧ strStarts (strLower l) "http" = false
      ∧ fs (pathJoin base_dir l) = true

/-- C4 (amended): the Link Validator decides validity exactly by the amended
    rule, whose remote test is a bare case-insensitive http prefix test. -/
theorem validator_characterization (fs : String → Bool) (link : Option String)
    (base_dir : String) :
    link_is_valid_relative fs link base_dir = true ↔ linkValidAmended fs link base_dir := by
  cases link with
  | none => simp [link_is_valid_relative, linkValidAmended]
  | some l =>
    constructor
    · intro h
      by_cases h1 : isabs l
      · simp [link_is_valid_relative, h1] at h
      · by_cases h2 : strStarts (strLower l) "http"
        · simp [link_is_valid_relative, h1, h2] at h
        · refine Or.inr ⟨l, rfl, by simpa using h1, by simpa using h2, ?_⟩
          simpa [link_is_valid_relative, h1, h2] using h
    · rintro (h | ⟨l', hl, ha, hh, hf⟩)
      · exact absurd h (by simp)
      · have : l' = l := by injection hl.symm
        subst this
        simp [link_is_valid_relative, ha, hh, hf]

/-- C9: a relative link whose lowercased form begins with http is rejected by
    the validator even when the joined path exists on disk. -/
theorem validator_rejects_http_named (fs : String → Bool) (base_dir : String)
    (hexists : fs (pathJoin base_dir "http-notes/index.rst") = true) :
    isabs "http-notes/index.rst" = false
    ∧ link_is_valid_relative fs (some "http-notes/index.rst") base_dir = false := by
  have h1 : isabs "http-notes/index.rst" = false := by decide
  have h2 : strStarts (strLower "http-notes/index.rst") "http" = true := by decide
  exact ⟨h1, by simp [link_is_valid_relative, h1, h2]⟩

/-- Witness for C9 on a filesystem where every path exists. -/
theorem validator_rejects_http_named_example :
    link_is_valid_relative (fun _ => true) (some "http-notes/index.rst") "demos" = false :=
  (validator_rejects_http_named (fun _ => true) "demos" rfl).2

/-- Element-wise form of the list case of textify. -/
theorem textifyList_eq_map : ∀ xs : List CellInput, textifyList xs = xs.map textify
  | [] => rfl
  | x :: xs => by rw [textifyList, List.map_cons, textifyList_eq_map xs]

mutual

/-- Applying textify to (the re-read of) its own output returns that output. -/
theorem textify_embed_aux : ∀ i : CellInput, textify (cellEmbed (textify i)) = textify i
  | CellInput.noneI => rfl
  | CellInput.boolI b => by cases b <;> rfl
  | CellInput.strI s => by
    by_cases h : s = ""
    · simp [textify, h, cellEmbed]
    · simp [textify, h, cellEmbed]
  | CellInput.nodeI t => rfl
  | CellInput.listI xs => by
    cases xs with
    | nil => rfl
    | cons x xs =>
      have hne : textify (CellInput.listI (x :: xs))
          = CellValue.list (textify x :: textifyList xs) := by
        simp [textify, textifyList]
      rw [hne]
      show textify (CellInput.listI
        (cellEmbed (textify x) :: cellEmbedList (textifyList xs)))
        = CellValue.list (textify x :: textifyList xs)
      simp only [textify, List.isEmpty_cons, Bool.false_eq_true, if_false, textifyList]
      rw [textify_embed_aux x, textifyList_embed_aux xs]

/-- List version of textify_embed_aux. -/
theorem textifyList_embed_aux :
    ∀ xs : List CellInput, textifyList (cellEmbedList (textifyList xs)) = textifyList xs
  | [] => rfl
  | x :: xs => by
    show textify (cellEmbed (textify x)) :: textifyList (cellEmbedList (textifyList xs))
      = textify x :: textifyList xs
    rw [textify_embed_aux x, textifyList_embed_aux xs]

end

/-- C7: textify sends falsy input to absent, True to the fixed yes node, a
    nonempty list to the element-wise normalization in order, an existing node
    to itself, and a nonempty string to a node with that text; the mapping has
    no error path and is idempotent on its own output. -/
theorem textify_normalization :
    (∀ i, cellFalsy i → textify i = CellValue.none)
    ∧ textify (CellInput.boolI true) = CellValue.node ⟨TRUE_TEXT, none, none, LinkKind.notebook⟩
    ∧ (∀ xs, xs ≠ [] → textify (CellInput.listI xs) = CellValue.list (xs.map textify))
    ∧ (∀ t, textify (CellInput.nodeI t) = CellValue.node t)
    ∧ (∀ s, s ≠ "" → textify (CellInput.strI s) = CellValue.node ⟨s, none, none, LinkKind.notebook⟩)
    ∧ (∀ i, textify (cellEmbed (textify i)) = textify i) := by
  refine ⟨?_, rfl, ?_, fun t => rfl, ?_, textify_embed_aux⟩
  · intro i hf
    cases i with
    | noneI => rfl
    | boolI b => cases b with
      | false => rfl
      | true => exact absurd hf (by simp [cellFalsy])
    | strI s => simp [cellFalsy] at hf; simp [textify, hf]
    | nodeI t => exact absurd hf (by simp [cellFalsy])
    | listI xs => simp [cellFalsy] at hf; simp [textify, hf]
  · intro xs hx
    rw [← textifyList_eq_map]
    cases xs with
    | nil => exact absurd rfl hx
    | cons x xs => simp [textify]
  · intro s hs
    simp [textify, hs]

/-- Witness for C7: a list around True normalizes element-wise and the result
    is stable under renormalization. -/
theorem textify_normalization_example :
    textify (CellInput.listI [CellInput.boolI true])
      = CellValue.list [CellValue.node ⟨TRUE_TEXT, none, none, LinkKind.notebook⟩]
    ∧ textify (cellEmbed (textify (CellInput.listI [CellInput.boolI true])))
      = textify (CellInput.listI [CellInput.boolI true]) := by
  have h := textify_normalization
  have h3 := h.2.2.1 [CellInput.boolI true] (by simp)
  exact ⟨by rw [h3]; rfl, h.2.2.2.2.2 (CellInput.listI [CellInput.boolI true])⟩

/-- A string append with a nonempty right part is nonempty. -/
theorem append_right_ne_empty (s t : String) (h : t ≠ "") : s ++ t ≠ "" := by
  intro he
  apply h
  cases s with | mk ds =>
  cases t with | mk dt =>
  have h2 : ds ++ dt = ([] : List Char) := congrArg String.data he
  have h3 : dt = [] := (List.append_eq_nil.mp h2).2
  rw [h3]

/-- The text-node case of the extractor agreement: in checking mode every
    suffix is nonempty, so the truthiness test of the source yields a pair
    exactly when the declared link is set. -/
theorem findLinks_node_aux (fmt : Fmt) (t : T) :
    find_links fmt (Element.nodeE t) = findLinksSpec fmt (Element.nodeE t) := by
  cases hl : t.link with
  | none => simp [find_links, findLinksSpec, Fmt.link, hl]
  | some l =>
    have hsfx : (match t.kind with
        | LinkKind.index => fmt.index_suffix true
        | LinkKind.notebook => fmt.notebook_suffix true) ≠ "" := by
      cases t.kind <;> cases fmt <;> decide
    have hne : l ++ (match t.kind with
        | LinkKind.index => fmt.index_suffix true
        | LinkKind.notebook => fmt.notebook_suffix true) ≠ "" :=
      append_right_ne_empty _ _ hsfx
    simp [find_links, findLinksSpec, Fmt.link, hl, hne]

mutual

/-- Agreement of the extractor with the specification traversal, per element. -/
theorem findLinks_agrees_aux (fmt : Fmt) :
    ∀ e : Element, find_links fmt e = findLinksSpec fmt e
  | Element.noneE => rfl
  | Element.nodeE t => findLinks_node_aux fmt t
  | Element.listE xs => findLinksList_agrees_aux fmt xs
  | Element.recordE cols => findLinksCols_agrees_aux fmt cols
  | Element.otherE => rfl

/-- Agreement on element lists. -/
theorem findLinksList_agrees_aux (fmt : Fmt) :
    ∀ es : List Element, findLinksList fmt es = findLinksListSpec fmt es
  | [] => rfl
  | e :: es => by
    show (match find_links fmt e with
      | Except.error msg => Except.error msg
      | Except.ok ps =>
        match findLinksList fmt es with
        | Except.error msg => Except.error msg
        | Except.ok qs => Except.ok (ps ++ qs)) = _
    rw [findLinks_agrees_aux fmt e, findLinksList_agrees_aux fmt es]
    rfl

/-- Agreement on record column lists. -/
theorem findLinksCols_agrees_aux (fmt : Fmt) :
    ∀ ces : List (T × Element), findLinksCols fmt ces = findLinksColsSpec fmt ces
  | [] => rfl
  | (h, e) :: ces => by
    show (match find_links fmt e with
      | Except.error msg => Except.error msg
      | Except.ok ps =>
        match findLinksCols fmt ces with
        | Except.error msg => Except.error msg
        | Except.ok qs => Except.ok (ps ++ qs)) = _
    rw [findLinks_agrees_aux fmt e, findLinksCols_agrees_aux fmt ces]
    rfl

end

/-- C8: the Link Extractor yields exactly the sequence prescribed by the
    traversal rule: nothing for None, one checking-resolved pair for a linked
    text node, in-order concatenation for lists and for record column values,
    and a fatal error on any other shape. -/
theorem find_links_matches_spec (fmt : Fmt) (e : Element) :
    find_links fmt e = findLinksSpec fmt e :=
  findLinks_agrees_aux fmt e

/-- The marker line that Html.render emits first. -/
def headerMark : String := "<!-- " ++ AUTOGENERATED_PROMPT ++ " -->"

/-- Builder invariant during the table body: the first emitted line is the
    marker, at least one more line follows it, and the indent configuration is
    the one Html.render set up. -/
def keepsMark (b : HtmlBuilder) : Prop :=
  (∃ rest, b.html = headerMark :: rest ∧ rest ≠ []) ∧ b.indent_amount = some 2

/-- A non-one-line add appends one line and leaves the configuration alone. -/
theorem add_false_shape (b : HtmlBuilder) (d : String) :
    ∃ d2, (b.add d false).html = b.html ++ [d2]
      ∧ (b.add d false).indent_amount = b.indent_amount :=
  ⟨_, rfl, rfl⟩

/-- Every add preserves the builder invariant. -/
theorem add_keepsMark (b : HtmlBuilder) (d : String) (ol : Bool) (h : keepsMark b) :
    keepsMark (b.add d ol) := by
  obtain ⟨⟨rest, hh, hne⟩, hia⟩ := h
  cases ol with
  | false =>
    obtain ⟨d2, hh2, hia2⟩ := add_false_shape b d
    refine ⟨⟨rest ++ [d2], ?_, by simp⟩, by rw [hia2, hia]⟩
    rw [hh2, hh]
    rfl
  | true =>
    cases rest with
    | nil => exact absurd rfl hne
    | cons r rs =>
      refine ⟨⟨(r :: rs).dropLast ++ [(b.html.getLast?.getD "") ++ d], ?_, by simp⟩, hia⟩
      show b.html.dropLast ++ [(b.html.getLast?.getD "") ++ d] = _
      rw [hh]
      rfl

/-- An element with a false collapse condition preserves (and, after its
    opening line, establishes) the builder invariant, provided its body
    preserves it. -/
theorem element_core (b : HtmlBuilder) (nm : String) (attrs : List (String × String))
    (owa : Bool) (body : HtmlBuilder → HtmlBuilder)
    (hcond : (owa && attrs.isEmpty) = false)
    (hb : ∃ rest, b.html = headerMark :: rest) (hia : b.indent_amount = some 2)
    (hbody : ∀ b2, keepsMark b2 → keepsMark (body b2)) :
    keepsMark (b.element nm attrs owa body) := by
  obtain ⟨rest, hh⟩ := hb
  unfold HtmlBuilder.element
  rw [if_neg (by simp [hcond])]
  apply add_keepsMark
  have h1 : keepsMark (b.add ("<" ++ nm ++ attrsStr attrs ++ ">") false) := by
    obtain ⟨d2, hh2, hia2⟩ := add_false_shape b ("<" ++ nm ++ attrsStr attrs ++ ">")
    refine ⟨⟨rest ++ [d2], ?_, by simp⟩, by rw [hia2, hia]⟩
    rw [hh2, hh]
    rfl
  have h2 : keepsMark (body { b.add ("<" ++ nm ++ attrsStr attrs ++ ">") false with
      indent_level := (b.add ("<" ++ nm ++ attrsStr attrs ++ ">") false).indent_level + 1 }) :=
    hbody _ ⟨h1.1, h1.2⟩
  exact ⟨h2.1, h2.2⟩

/-- Folding an invariant-preserving step preserves the invariant. -/
theorem foldl_keepsMark {α : Type} (f : HtmlBuilder → α → HtmlBuilder)
    (hf : ∀ b x, keepsMark b → keepsMark (f b x)) :
    ∀ (l : List α) (b : HtmlBuilder), keepsMark b → keepsMark (List.foldl f b l)
  | [], b, hb => hb
  | x :: xs, b, hb => foldl_keepsMark f hf xs (f b x) (hf b x hb)

mutual

/-- Cell rendering preserves the builder invariant. -/
theorem render_cell_keepsMark :
    ∀ (cell : CellValue) (b : HtmlBuilder) (ol : Bool),
      keepsMark b → keepsMark (Html.render_cell b cell ol)
  | CellValue.none, b, ol, h => h
  | CellValue.list xs, b, ol, h => by
    show keepsMark (if xs.isEmpty then b else Html.render_cell_list b xs)
    by_cases he : xs.isEmpty
    · rw [if_pos he]; exact h
    · rw [if_neg he]; exact render_cell_list_keepsMark xs b h
  | CellValue.node t, b, ol, h => add_keepsMark b _ ol h

/-- List-cell rendering preserves the builder invariant. -/
theorem render_cell_list_keepsMark :
    ∀ (cs : List CellValue) (b : HtmlBuilder),
      keepsMark b → keepsMark (Html.render_cell_list b cs)
  | [], b, h => h
  | c :: cs, b, h =>
    render_cell_list_keepsMark cs (Html.render_cell b c false)
      (render_cell_keepsMark c b false h)

end

/-- A builder satisfying the invariant prints the marker as its first line. -/
theorem stringOut_keepsMark (b : HtmlBuilder) (h : keepsMark b) :
    ∃ r, b.stringOut = headerMark ++ "\n" ++ r := by
  obtain ⟨⟨rest, hh, hne⟩, hia⟩ := h
  cases rest with
  | nil => exact absurd rfl hne
  | cons r rs =>
    refine ⟨joinWith "\n" (r :: rs), ?_⟩
    unfold HtmlBuilder.stringOut
    rw [hia, hh]
    rfl

/-- The hypertext renderer always emits the autogenerated marker as its first
    line, for every heading list and record list. -/
theorem html_render_first_line (headings : List T) (algorithms : List Algorithm) :
    ∃ r, Html.render headings algorithms = headerMark ++ "\n" ++ r := by
  unfold Html.render
  apply stringOut_keepsMark
  apply element_core
  · rfl
  · exact ⟨[], rfl⟩
  · rfl
  · intro bt hbt
    obtain ⟨⟨rt, hht, _⟩, hiat⟩ := hbt
    apply foldl_keepsMark
    · intro bb alg hbb
      obtain ⟨⟨rb, hhb, _⟩, hiab⟩ := hbb
      apply element_core
      · rfl
      · exact ⟨rb, hhb⟩
      · exact hiab
      · intro br hbr
        apply foldl_keepsMark
        · intro bc heading hbc
          obtain ⟨⟨rc, hhc, _⟩, hiac⟩ := hbc
          apply element_core
          · rfl
          · exact ⟨rc, hhc⟩
          · exact hiac
          · intro bd hbd
            exact render_cell_keepsMark _ bd true hbd
        · exact hbr
    · apply element_core
      · rfl
      · exact ⟨rt, hht⟩
      · exact hiat
      · intro br hbr
        apply foldl_keepsMark
        · intro bc heading hbc
          obtain ⟨⟨rc, hhc, _⟩, hiac⟩ := hbc
          apply element_core
          · rfl
          · exact ⟨rc, hhc⟩
          · exact hiac
          · intro bd hbd
            exact add_keepsMark bd _ true hbd
        · exact hbr

/-- A fold whose step only appends keeps the accumulated list an extension. -/
theorem foldl_append_head {α : Type} (f : List String → α → List String)
    (hf : ∀ acc x, ∃ ext, f acc x = acc ++ ext) :
    ∀ (l : List α) (init0 : List String), ∃ ext, List.foldl f init0 l = init0 ++ ext
  | [], init0 => ⟨[], by simp⟩
  | x :: xs, init0 => by
    obtain ⟨e1, he1⟩ := hf init0 x
    obtain ⟨e2, he2⟩ := foldl_append_head f hf xs (f init0 x)
    exact ⟨e1 ++ e2, by rw [List.foldl_cons, he2, he1, List.append_assoc]⟩

/-- The structured-text renderer always has the list-table directive as its
    first line, for every heading list and record list. -/
theorem rst_render_first_line (headings : List T) (algorithms : List Algorithm) :
    ∃ r, Rst.render headings algorithms = ".. list-table::" ++ "\n" ++ r := by
  simp only [Rst.render]
  have hf : ∀ (acc : List String) (alg : Algorithm), ∃ ext,
      (acc ++ ["   *"]) ++ headings.map (fun h =>
        if Rst.render_cell (alg.col h) = "" then "     -"
        else "     -" ++ " " ++ Rst.render_cell (alg.col h)) = acc ++ ext :=
    fun acc alg => ⟨_, List.append_assoc _ _ _⟩
  obtain ⟨ext, hext⟩ := foldl_append_head _ hf algorithms
    (([".. list-table::", "   :header-rows: 1", ""] ++ ["   *"])
      ++ headings.map (fun h => "     -" ++ " " ++ Rst.render_t h))
  rw [hext]
  refine ⟨joinWith "\n" ("   :header-rows: 1" :: "" :: "   *"
    :: (headings.map (fun h => "     -" ++ " " ++ Rst.render_t h) ++ ext)), ?_⟩
  simp only [List.append_assoc, List.cons_append, List.nil_append]
  rfl

/-- Structural substring test used to state the counterexample. -/
def containsSub (pat : List Char) : List Char → Bool
  | [] => pat.isEmpty
  | c :: rest => pat.isPrefixOf (c :: rest) || containsSub pat rest

/-- C5 counterexample: the structured-text renderer does not prepend the
    autogenerated marker line; on the empty catalog its output starts with the
    list-table directive and does not mention the marker text at all, while the
    hypertext marker line does. -/
theorem rst_render_no_marker_cex :
    Rst.render [] [] = ".. list-table::\n   :header-rows: 1\n\n   *"
    ∧ containsSub "autogenerated".data (Rst.render [] []).data = false
    ∧ containsSub "autogenerated".data headerMark.data = true := by
  refine ⟨rfl, by decide, by decide⟩

/-- C5 (amended): the hypertext renderer prepends the fixed autogenerated
    do-not-hand-edit marker line (its first line is that marker), while the
    structured-text renderer prepends no marker: its first line is the
    list-table directive.  The hypothesis restricts records to those whose
    columns contain every rendered heading, which is the domain on which the
    source lookups succeed. -/
theorem render_first_line (headings : List T) (algorithms : List Algorithm)
    (hwf : ∀ a ∈ algorithms, ∀ h ∈ headings,
      (List.find? (fun p => p.1 == h) a.columns).isSome = true) :
    (∃ r, Html.render headings algorithms = headerMark ++ "\n" ++ r)
    ∧ (∃ r, Rst.render headings algorithms = ".. list-table::" ++ "\n" ++ r)
    ∧ headerMark.data.contains '\n' = false
    ∧ (".. list-table::" : String).data.contains '\n' = false :=
  ⟨html_render_first_line headings algorithms,
   rst_render_first_line headings algorithms,
   by decide, by decide⟩

/-- Witness for C5 (amended) on a one-column, one-record catalog. -/
theorem render_first_line_example :
    ∃ r, Html.render [⟨"Algorithm", none, none, LinkKind.notebook⟩]
      [⟨[(⟨"Algorithm", none, none, LinkKind.notebook⟩,
          CellValue.node ⟨"GCN", none, none, LinkKind.notebook⟩)]⟩]
      = headerMark ++ "\n" ++ r :=
  (render_first_line [⟨"Algorithm", none, none, LinkKind.notebook⟩]
    [⟨[(⟨"Algorithm", none, none, LinkKind.notebook⟩,
        CellValue.node ⟨"GCN", none, none, LinkKind.notebook⟩)]⟩]
    (by decide)).1

/-- The split never produces an empty list of parts. -/
theorem splitOnList_ne_nil (sep l : List Char) : splitOnList sep l ≠ [] := by
  induction l using splitOnList.induct sep with
  | case1 => simp [splitOnList]
  | case2 c rest h ih => rw [splitOnList, dif_pos h]; simp
  | case3 c rest h heq ih => exact absurd heq ih
  | case4 c rest h part parts heq ih => rw [splitOnList, dif_neg h, heq]; simp

/-- Joining the parts of a split with the separator restores the input. -/
theorem joinSep_splitOnList (sep l : List Char) : joinSep sep (splitOnList sep l) = l := by
  induction l using splitOnList.induct sep with
  | case1 => simp [splitOnList, joinSep]
  | case2 c rest h ih =>
    rw [splitOnList, dif_pos h]
    obtain ⟨t, ht⟩ := List.isPrefixOf_iff_prefix.mp h.2
    have hdrop : (c :: rest).drop sep.length = t := by
      rw [← ht]; exact List.drop_left sep t
    rw [hdrop] at ih ⊢
    cases hsp : splitOnList sep t with
    | nil => exact absurd hsp (splitOnList_ne_nil sep t)
    | cons q qs =>
      rw [hsp] at ih
      show [] ++ sep ++ joinSep sep (q :: qs) = c :: rest
      rw [List.nil_append, ih]
      exact ht
  | case3 c rest h heq ih => exact absurd heq (splitOnList_ne_nil sep rest)
  | case4 c rest h part parts heq ih =>
    rw [splitOnList, dif_neg h, heq]
    rw [heq] at ih
    cases parts with
    | nil =>
      show c :: part = c :: rest
      rw [show part = rest from ih]
    | cons q qs =>
      show (c :: part) ++ sep ++ joinSep sep (q :: qs) = c :: rest
      rw [← ih]
      rfl

/-- Splitting the separator on itself yields two empty parts. -/
theorem splitOnList_self (sep : List Char) (hsep : sep ≠ []) :
    splitOnList sep sep = [[], []] := by
  cases sep with
  | nil => exact absurd rfl hsep
  | cons c s2 =>
    rw [splitOnList, dif_pos ⟨by simp, List.isPrefixOf_iff_prefix.mpr (List.prefix_refl _)⟩,
      List.drop_length]
    simp [splitOnList]

/-- The first part of a multi-part split rejoins with the separator into a
    string whose only separator occurrence is the final one. -/
theorem split_first_clean (sep : List Char) (hsep : sep ≠ []) :
    ∀ (l p : List Char) (ps : List (List Char)),
      splitOnList sep l = p :: ps → ps ≠ [] → splitOnList sep (p ++ sep) = [p, []] := by
  intro l
  induction l using splitOnList.induct sep with
  | case1 =>
    intro p ps h hps
    simp [splitOnList] at h
    exact absurd h.2 hps
  | case2 c rest h2 ih =>
    intro p ps h hps
    rw [splitOnList, dif_pos h2] at h
    injection h with h3 h4
    rw [← h3, List.nil_append]
    exact splitOnList_self sep hsep
  | case3 c rest h2 heq ih =>
    intro p ps h hps
    exact absurd heq (splitOnList_ne_nil sep rest)
  | case4 c rest h2 part parts heq ih =>
    intro p ps h hps
    rw [splitOnList, dif_neg h2, heq] at h
    injection h with h3 h4
    subst h3
    subst h4
    have hclean : splitOnList sep (part ++ sep) = [part, []] := ih part parts heq hps
    have hj := joinSep_splitOnList sep rest
    rw [heq] at hj
    cases hq : parts with
    | nil => exact absurd hq hps
    | cons q qs =>
      rw [hq] at hj
      have hrest : rest = part ++ sep ++ joinSep sep (q :: qs) := by
        rw [← hj]
        rfl
      have hnp : ¬ sep.isPrefixOf (c :: (part ++ sep)) := by
        intro hcontra
        apply h2
        refine ⟨hsep, ?_⟩
        have h5 : sep <+: c :: (part ++ sep) := List.isPrefixOf_iff_prefix.mp hcontra
        have h6 : sep <+: (c :: (part ++ sep)) ++ joinSep sep (q :: qs) :=
          h5.trans (List.prefix_append _ _)
        rw [List.isPrefixOf_iff_prefix, hrest]
        simpa [List.append_assoc] using h6
      rw [List.cons_append, splitOnList, dif_neg (fun hx => hnp hx.2), hclean]

/-- The last part of a split contains no separator occurrence: splitting it
    again returns it whole. -/
theorem split_last_self (sep : List Char) :
    ∀ (l : List Char) (ps : List (List Char)) (s : List Char),
      splitOnList sep l = ps ++ [s] → splitOnList sep s = [s] := by
  intro l
  induction l using splitOnList.induct sep with
  | case1 =>
    intro ps s h
    have h1 : splitOnList sep ([] : List Char) = [[]] := by simp [splitOnList]
    rw [h1] at h
    cases ps with
    | nil =>
      injection h with h3 _
      rw [← h3]
      exact h1
    | cons a as =>
      injection h with h3 h4
      exact absurd h4.symm (by simp)
  | case2 c rest h2 ih =>
    intro ps s h
    rw [splitOnList, dif_pos h2] at h
    cases ps with
    | nil =>
      injection h with h3 h4
      exact absurd h4 (splitOnList_ne_nil sep _)
    | cons a as =>
      injection h with h3 h4
      exact ih as s h4
  | case3 c rest h2 heq ih =>
    intro ps s h
    exact absurd heq (splitOnList_ne_nil sep rest)
  | case4 c rest h2 part parts heq ih =>
    intro ps s h
    rw [splitOnList, dif_neg h2, heq] at h
    cases parts with
    | nil =>
      cases ps with
      | cons a as =>
        injection h with h3 h4
        exact absurd h4.symm (by simp)
      | nil =>
        injection h with h3 _
        have hj := joinSep_splitOnList sep rest
        rw [heq] at hj
        have hpr : part = rest := hj
        rw [← h3, hpr]
        rw [splitOnList, dif_neg h2, heq, hpr]
    | cons q qs =>
      cases ps with
      | nil =>
        injection h with h3 h4
        exact absurd h4 (by simp)
      | cons a as =>
        injection h with h3 h4
        refine ih (part :: as) s ?_
        rw [heq, h4]
        rfl

/-- A prefix that fits inside the left half of an append is a prefix of that
    left half. -/
theorem prefix_of_append_of_le (a x y : List Char) (hlen : a.length ≤ x.length)
    (h : a <+: x ++ y) : a <+: x := by
  have h1 := List.prefix_iff_eq_take.mp h
  rw [List.take_append_of_le_length hlen] at h1
  rw [h1]
  exact List.take_prefix a.length x

/-- Splitting a string that starts with a clean part and the separator peels
    that part off and continues on the remainder. -/
theorem split_append (sep : List Char) (hsep : sep ≠ []) :
    ∀ (p rest : List Char), splitOnList sep (p ++ sep) = [p, []] →
      splitOnList sep (p ++ (sep ++ rest)) = p :: splitOnList sep rest := by
  intro p
  induction p with
  | nil =>
    intro rest hp
    rw [List.nil_append]
    cases hs : sep with
    | nil => exact absurd hs hsep
    | cons c s2 =>
      subst hs
      rw [List.cons_append, splitOnList]
      rw [dif_pos ⟨by simp, List.isPrefixOf_iff_prefix.mpr
        (by rw [← List.cons_append]; exact List.prefix_append _ _)⟩]
      have hdrop : (c :: (s2 ++ rest)).drop (c :: s2).length = rest := by
        rw [← List.cons_append]
        exact List.drop_left _ _
      rw [hdrop]
  | cons c p2 ih =>
    intro rest hp
    have hnp : ¬ sep.isPrefixOf (c :: (p2 ++ sep)) := by
      intro hcon
      rw [List.cons_append, splitOnList, dif_pos ⟨hsep, hcon⟩] at hp
      injection hp with h1 _
      exact (List.cons_ne_nil c p2) h1.symm
    rw [List.cons_append, splitOnList, dif_neg (fun hx => hnp hx.2)] at hp
    cases hq : splitOnList sep (p2 ++ sep) with
    | nil => exact absurd hq (splitOnList_ne_nil _ _)
    | cons q qs =>
      rw [hq] at hp
      injection hp with h1 h2
      injection h1 with _ h1b
      rw [h1b, h2] at hq
      have ihr := ih rest hq
      have hnp2 : ¬ (sep ≠ [] ∧ sep.isPrefixOf (c :: (p2 ++ (sep ++ rest))) = true) := by
        rintro ⟨-, hcon⟩
        apply hnp
        rw [List.isPrefixOf_iff_prefix] at hcon ⊢
        apply prefix_of_append_of_le sep (c :: (p2 ++ sep)) rest
        · simp
          omega
        · simpa [List.append_assoc] using hcon
      rw [List.cons_append, splitOnList, dif_neg hnp2, ihr]

/-- Re-splitting after an overwrite: when the replacement middle composes
    cleanly with the separator, the rewritten file splits into exactly the
    original prefix, the new middle and the original suffix. -/
theorem splitOnList_resplit (sep content m pre mid suf : List Char) (hsep : sep ≠ [])
    (hsplit : splitOnList sep content = [pre, mid, suf])
    (hclean : splitOnList sep (m ++ sep) = [m, []]) :
    splitOnList sep (pre ++ (sep ++ (m ++ (sep ++ suf)))) = [pre, m, suf] := by
  have h1 : splitOnList sep (pre ++ sep) = [pre, []] :=
    split_first_clean sep hsep content pre [mid, suf] hsplit (by simp)
  have h2 : splitOnList sep suf = [suf] :=
    split_last_self sep content [pre, mid] suf (by rw [hsplit]; rfl)
  rw [split_append sep hsep pre (m ++ (sep ++ suf)) h1]
  rw [split_append sep hsep m suf hclean]
  rw [h2]

/-- The number of parts is one more than the number of separator occurrences
    (the source reports len(parts) - 1 occurrences). -/
theorem split_length_count (sep l : List Char) :
    (splitOnList sep l).length = countOcc sep l + 1 := by
  induction l using splitOnList.induct sep with
  | case1 => simp [splitOnList, countOcc]
  | case2 c rest h ih =>
    rw [splitOnList, dif_pos h, countOcc, dif_pos h]
    simp [ih]
  | case3 c rest h heq ih => exact absurd heq (splitOnList_ne_nil sep rest)
  | case4 c rest h part parts heq ih =>
    rw [splitOnList, dif_neg h, heq, countOcc, dif_neg h]
    rw [heq] at ih
    simp at ih ⊢
    omega

/-- When the file does not split into exactly three parts, the run exits with
    the separator-count error and the file is returned unchanged. -/
theorem sco_default (content sep : List Char) (action : PatchAction) (new_middle : List Char)
    (hne3 : ∀ a b c, splitOnList sep content ≠ [a, b, c]) :
    separate_compare_overwrite content sep action new_middle
      = ⟨PatchOutcome.sepError ((splitOnList sep content).length - 1), content⟩ := by
  unfold separate_compare_overwrite
  rcases hsp : splitOnList sep content with _ | ⟨a, _ | ⟨b, _ | ⟨c2, _ | ⟨d, t⟩⟩⟩⟩ <;>
    cases action <;>
    first
      | rfl
      | exact absurd hsp (hne3 _ _ _)

/-- C2: the patcher proceeds only when the separator occurs exactly twice in
    the file (three parts); for any other occurrence count, in both modes, it
    exits with the separator-count error, reporting that count, and leaves the
    file contents untouched. -/
theorem separator_count_contract (content sep new_middle : List Char) (action : PatchAction)
    (hsep : sep ≠ []) (hcount : countOcc sep content ≠ 2) :
    (splitOnList sep content).length = countOcc sep content + 1
    ∧ (separate_compare_overwrite content sep action new_middle).outcome
        = PatchOutcome.sepError (countOcc sep content)
    ∧ (separate_compare_overwrite content sep action new_middle).file = content := by
  have hl := split_length_count sep content
  have hne3 : ∀ a b c, splitOnList sep content ≠ [a, b, c] := by
    intro a b c hx
    rw [hx] at hl
    simp at hl
    exact hcount (by omega)
  have hres := sco_default content sep action new_middle hne3
  refine ⟨hl, ?_, ?_⟩
  · rw [hres, hl]
    simp
  · rw [hres]

/-- Witness for C2: a file with no separator occurrence errors out in compare
    mode with a reported count of zero, leaving the file unchanged. -/
theorem separator_count_contract_example :
    (separate_compare_overwrite ['a', 'b'] ['#'] PatchAction.compare ['N']).outcome
      = PatchOutcome.sepError 0
    ∧ (separate_compare_overwrite ['a', 'b'] ['#'] PatchAction.compare ['N']).file
      = ['a', 'b'] := by
  have h := separator_count_contract ['a', 'b'] ['#'] ['N'] PatchAction.compare
    (by decide) (by simp +decide [countOcc])
  have hc : countOcc ['#'] ['a', 'b'] = 0 := by simp +decide [countOcc]
  refine ⟨?_, h.2.2⟩
  rw [h.2.1, hc]

/-- C3: on a file with exactly three parts, overwrite rewrites the file as
    prefix, separator, freshly rendered middle, separator, suffix — the whole
    contents are replaced (trailing bytes cannot survive), and the prefix and
    suffix are the original ones, byte for byte. -/
theorem overwrite_frame (content sep new_middle pre mid suf : List Char)
    (hsplit : splitOnList sep content = [pre, mid, suf]) :
    content = pre ++ sep ++ mid ++ sep ++ suf
    ∧ (separate_compare_overwrite content sep PatchAction.overwrite new_middle).file
        = pre ++ sep ++ new_middle ++ sep ++ suf
    ∧ (separate_compare_overwrite content sep PatchAction.overwrite new_middle).outcome
        = PatchOutcome.ok := by
  have hj := joinSep_splitOnList sep content
  rw [hsplit] at hj
  refine ⟨by rw [← hj]; simp [joinSep, List.append_assoc], ?_, ?_⟩ <;>
  · unfold separate_compare_overwrite
    rw [hsplit]

/-- Witness for C3 on a concrete five-character file. -/
theorem overwrite_frame_example :
    (separate_compare_overwrite ['a', '#', 'b', '#', 'c'] ['#'] PatchAction.overwrite
      ['N']).file = ['a'] ++ ['#'] ++ ['N'] ++ ['#'] ++ ['c'] := by
  have h := overwrite_frame ['a', '#', 'b', '#', 'c'] ['#'] ['N'] ['a'] ['b'] ['c']
    (by simp +decide [splitOnList])
  exact h.2.1

/-- C1: overwriting a well-formed file (three parts) with a middle that
    composes cleanly with the separator — as the catalog renderings do —
    succeeds; a second overwrite with the same middle leaves the file bytes
    identical, and a compare run immediately after the overwrite succeeds
    without modifying the file. -/
theorem overwrite_twice_compare_noop (content sep new_middle : List Char)
    (hsep : sep ≠ [])
    (h3 : (splitOnList sep content).length = 3)
    (hclean : splitOnList sep (new_middle ++ sep) = [new_middle, []]) :
    (separate_compare_overwrite content sep PatchAction.overwrite new_middle).outcome
      = PatchOutcome.ok
    ∧ (separate_compare_overwrite
        (separate_compare_overwrite content sep PatchAction.overwrite new_middle).file
        sep PatchAction.overwrite new_middle).file
      = (separate_compare_overwrite content sep PatchAction.overwrite new_middle).file
    ∧ (separate_compare_overwrite
        (separate_compare_overwrite content sep PatchAction.overwrite new_middle).file
        sep PatchAction.compare new_middle).outcome = PatchOutcome.ok
    ∧ (separate_compare_overwrite
        (separate_compare_overwrite content sep PatchAction.overwrite new_middle).file
        sep PatchAction.compare new_middle).file
      = (separate_compare_overwrite content sep PatchAction.overwrite new_middle).file := by
  obtain ⟨pre, mid, suf, hsplit⟩ := List.length_eq_three.mp h3
  have hre : splitOnList sep (pre ++ sep ++ new_middle ++ sep ++ suf) = [pre, new_middle, suf] := by
    have h0 := splitOnList_resplit sep content new_middle pre mid suf hsep hsplit hclean
    simpa [List.append_assoc] using h0
  have hover : separate_compare_overwrite content sep PatchAction.overwrite new_middle
      = ⟨PatchOutcome.ok, pre ++ sep ++ new_middle ++ sep ++ suf⟩ := by
    unfold separate_compare_overwrite
    rw [hsplit]
  have hover2 : separate_compare_overwrite (pre ++ sep ++ new_middle ++ sep ++ suf) sep
      PatchAction.overwrite new_middle
      = ⟨PatchOutcome.ok, pre ++ sep ++ new_middle ++ sep ++ suf⟩ := by
    unfold separate_compare_overwrite
    rw [hre]
  have hcomp : separate_compare_overwrite (pre ++ sep ++ new_middle ++ sep ++ suf) sep
      PatchAction.compare new_middle
      = ⟨PatchOutcome.ok, pre ++ sep ++ new_middle ++ sep ++ suf⟩ := by
    unfold separate_compare_overwrite
    rw [hre]
    simp
  rw [hover]
  exact ⟨rfl, by rw [hover2], by rw [hcomp], by rw [hcomp]⟩

/-- Witness for C1 on a concrete file, separator and replacement middle:
    compare after overwrite succeeds and a second overwrite changes nothing. -/
theorem overwrite_twice_compare_noop_example :
    (separate_compare_overwrite
      (separate_compare_overwrite ['a', '#', 'b', '#', 'c'] ['#'] PatchAction.overwrite
        ['N', 'E', 'W']).file
      ['#'] PatchAction.compare ['N', 'E', 'W']).outcome = PatchOutcome.ok := by
  have h := overwrite_twice_compare_noop ['a', '#', 'b', '#', 'c'] ['#'] ['N', 'E', 'W']
    (by decide) (by simp +decide [splitOnList]) (by simp +decide [splitOnList])
  exact h.2.2.1
